import Mathlib

/-!
Verification of the cause-list parsing program (cause_list_parser.py and app.py).

Strings are modelled as `List Char`.  Python string and regex operations used by
the program are translated into executable Lean functions on `List Char`;
geometry coordinates (floats in the source) are modelled as exact rationals.
ASCII case mapping (`Char.toLower` / `Char.toUpper`) models Python lower and
upper case conversion, which coincides with it on all ASCII inputs that occur
in the program and its documents.
-/

namespace CauseList

/-! ### Python character classes -/

/-- Python regex whitespace class and the default argument of str.strip. -/
def pyIsSpace (c : Char) : Bool :=
  c.toNat = 32 || c.toNat = 9 || c.toNat = 10 || c.toNat = 13 || c.toNat = 11 || c.toNat = 12

/-- Python regex digit class, restricted to ASCII. -/
def isPyDigit (c : Char) : Bool :=
  48 ≤ c.toNat && c.toNat ≤ 57

/-- Python regex word character class (for the boundary assertion), ASCII part. -/
def isWordChar (c : Char) : Bool :=
  (97 ≤ c.toNat && c.toNat ≤ 122) || (65 ≤ c.toNat && c.toNat ≤ 90) || isPyDigit c || c.toNat = 95

/-! ### Python string primitives on List Char -/

/-- Python str.lower, per character. -/
def pyLower (l : List Char) : List Char := l.map Char.toLower

/-- Python str.upper, per character. -/
def pyUpperStr (l : List Char) : List Char := l.map Char.toUpper

/-- Python str.capitalize: first character upper cased, the rest lower cased. -/
def pyCapitalize : List Char → List Char
  | [] => []
  | c :: cs => Char.toUpper c :: cs.map Char.toLower

/-- Strip characters satisfying p from both ends, as Python str.strip does. -/
def stripP (p : Char → Bool) (l : List Char) : List Char :=
  ((l.dropWhile p).reverse.dropWhile p).reverse

/-- Python str.strip with no argument. -/
def pyStripWs (l : List Char) : List Char := stripP pyIsSpace l

/-- The character set of the final strip in smart_title. -/
def strip4 : List Char := [' ', ',', '.', '-']

/-- Python str.strip with a set of characters. -/
def pyStripSet (s : List Char) (l : List Char) : List Char :=
  stripP (fun c => s.contains c) l

/-- Helper for collapseWs; the flag records whether the previous input
character was whitespace (so a run emits a single space). -/
def collapseWsAux : List Char → Bool → List Char
  | [], _ => []
  | c :: cs, prev =>
    if pyIsSpace c then
      if prev then collapseWsAux cs true else ' ' :: collapseWsAux cs true
    else c :: collapseWsAux cs false

/-- The substitution re.sub of one or more whitespace by a single space. -/
def collapseWs (l : List Char) : List Char := collapseWsAux l false

/-- Helper for pyWords; acc holds the current word reversed. -/
def wordsAux : List Char → List Char → List (List Char)
  | [], acc => if acc.isEmpty then [] else [acc.reverse]
  | c :: cs, acc =>
    if pyIsSpace c then
      if acc.isEmpty then wordsAux cs [] else acc.reverse :: wordsAux cs []
    else wordsAux cs (c :: acc)

/-- Python str.split with no argument: whitespace-delimited words. -/
def pyWords (l : List Char) : List (List Char) := wordsAux l []

/-- Python chr(39), the apostrophe, written by code point to keep sources clean. -/
def aposChar : Char := Char.ofNat 39

/-- The join of tokens by a single space. -/
def joinSp : List (List Char) → List Char
  | [] => []
  | [w] => w
  | w :: ws => w ++ ' ' :: joinSp ws

/-- Map a function receiving the element index, as Python enumerate does. -/
def mapWithIdx (f : Nat → List Char → List Char) : Nat → List (List Char) → List (List Char)
  | _, [] => []
  | n, w :: ws => f n w :: mapWithIdx f (n + 1) ws

/-- Case-sensitive startswith on lists. -/
def startsWithL : List Char → List Char → Bool
  | [], _ => true
  | _ :: _, [] => false
  | p :: ps, c :: cs => p = c && startsWithL ps cs

/-- Case-sensitive substring search. -/
def containsLit (pat : List Char) : List Char → Bool
  | [] => startsWithL pat []
  | c :: rest => startsWithL pat (c :: rest) || containsLit pat rest

/-- Case-insensitive substring search, modelling re.search of a literal with
the IGNORECASE flag. -/
def containsCI (pat l : List Char) : Bool :=
  containsLit (pyLower pat) (pyLower l)

/-- Case-insensitive literal prefix match returning the rest of the input. -/
def stripPrefixCI : List Char → List Char → Option (List Char)
  | [], l => some l
  | _ :: _, [] => none
  | p :: ps, c :: cs => if p.toLower = c.toLower then stripPrefixCI ps cs else none

/-- The numeric value of a digit string, as Python int does on it. -/
def parseNatDigits (l : List Char) : Nat :=
  l.foldl (fun n c => n * 10 + (c.toNat - 48)) 0

/-- Decimal rendering of a natural number, as a Python f-string does. -/
def natToChars (n : Nat) : List Char := Nat.toDigits 10 n

/-! ### smart_title (cause_list_parser.py lines 23 to 34) -/

/-- The preserved abbreviation set kept of smart_title, verbatim from the source. -/
def keptAbbrevs : List (List Char) :=
  [("U.P.").data, ("NCT").data, ("SLP").data, ("S.L.P.").data, ("IA").data,
   ("I.A.").data, ("Ltd.").data, ("LTD.").data, ("CBI").data, ("GST").data,
   ("W.P.(C)").data, ("T.P.(C)").data, ("T.P.(Crl.)").data]

/-- The connective word set lowers of smart_title, verbatim from the source. -/
def lowerWords : List (List Char) :=
  [("and").data, ("of").data, ("the").data, ("by").data, ("on").data, ("for").data,
   ("to").data, ("in").data, ("vs").data, ("vs.").data, ("alias").data, ("@").data]

/-- The per-token transform of smart_title: a token with a digit, or with a
period while all upper case, or whose upper case is in kept, is preserved
verbatim; otherwise it is lower cased and, unless it is a connective word in a
non-initial position, capitalized. -/
def transformTok (i : Nat) (w : List Char) : List Char :=
  if w.any isPyDigit ∨ ('.' ∈ w ∧ pyUpperStr w = w) ∨ pyUpperStr w ∈ keptAbbrevs then w
  else if pyLower w ∈ lowerWords ∧ i ≠ 0 then pyLower w
  else pyCapitalize (pyLower w)

/-- smart_title on List Char: strip and collapse whitespace, split into words,
transform each word with its index, join with single spaces, strip the
characters of strip4 from both ends. -/
def smartTitle (s : List Char) : List Char :=
  pyStripSet strip4 (joinSp (mapWithIdx transformTok 0 (pyWords (collapseWs (pyStripWs s)))))

/-- smart_title on String, wrapping the List Char version. -/
def smart_title (s : String) : String := ⟨smartTitle s.data⟩

/-! ### SERIAL_RE (line 11) -/

/-- Matching of SERIAL_RE anchored at the start of a line: optional leading
whitespace, one to three digits, an optional period followed by digits, and a
word boundary after the captured group.  Returns the captured serial token.
The two fallback branches reproduce the backtracking of the regex engine: when
the decimal part is absent or its end is not at a word boundary, the match
falls back to the bare digit prefix, whose following period is itself a word
boundary. -/
def serialMatch (l : List Char) : Option (List Char) :=
  let l2 := l.dropWhile pyIsSpace
  let ds := l2.takeWhile isPyDigit
  if ds.isEmpty || decide (ds.length > 3) then none
  else
    match l2.drop ds.length with
    | [] => some ds
    | c :: r2 =>
      if c = '.' then
        let ds2 := r2.takeWhile isPyDigit
        if ds2.isEmpty then some ds
        else
          match r2.drop ds2.length with
          | [] => some (ds ++ '.' :: ds2)
          | c2 :: _ => if isWordChar c2 then some ds else some (ds ++ '.' :: ds2)
      else if isWordChar c then none else some ds

/-! ### COURT_NUM_RE, CHIEF_JUSTICE_RE, VERSUS_RE (lines 12 to 14) -/

/-- Search for a matcher at every position, modelling re.search. -/
def searchWith (m : List Char → Bool) : List Char → Bool
  | [] => m []
  | c :: rest => m (c :: rest) || searchWith m rest

/-- Search for an option-valued matcher at every position, leftmost first. -/
def searchOptWith (m : List Char → Option Nat) : List Char → Option Nat
  | [] => m []
  | c :: rest =>
    match m (c :: rest) with
    | some n => some n
    | none => searchOptWith m rest

/-- Match of CHIEF_JUSTICE_RE at one position: CHIEF, whitespace, JUSTICE, an
optional apostrophe, S, whitespace, COURT, case-insensitively. -/
def matchChiefAt (l : List Char) : Bool :=
  match stripPrefixCI ("CHIEF").data l with
  | none => false
  | some r1 =>
    match r1 with
    | [] => false
    | c :: _ =>
      if pyIsSpace c then
        let r2 := r1.dropWhile pyIsSpace
        match stripPrefixCI ("JUSTICE").data r2 with
        | none => false
        | some r3 =>
          let r4 := match r3 with
            | a :: t => if a = aposChar then t else r3
            | [] => r3
          match stripPrefixCI ("S").data r4 with
          | none => false
          | some r5 =>
            match r5 with
            | [] => false
            | d :: _ =>
              if pyIsSpace d then
                (stripPrefixCI ("COURT").data (r5.dropWhile pyIsSpace)).isSome
              else false
      else false

/-- Match of COURT_NUM_RE at one position: COURT, optional whitespace, NO,
optional period, optional whitespace, optional colon or hyphen, optional
whitespace, then digits; returns the number captured by the digits group. -/
def matchCourtNumAt (l : List Char) : Option Nat :=
  match stripPrefixCI ("COURT").data l with
  | none => none
  | some r1 =>
    match stripPrefixCI ("NO").data (r1.dropWhile pyIsSpace) with
    | none => none
    | some r3 =>
      let r4 := match r3 with
        | '.' :: t => t
        | _ => r3
      let r5 := r4.dropWhile pyIsSpace
      let r6 := match r5 with
        | ':' :: t => t
        | '-' :: t => t
        | _ => r5
      let ds := (r6.dropWhile pyIsSpace).takeWhile isPyDigit
      if ds.isEmpty then none else some (parseNatDigits ds)

/-- Matching of VERSUS_RE on a whole line: optional whitespace, versus
case-insensitively, an optional period, optional whitespace to the end. -/
def isVersusLine (l : List Char) : Bool :=
  match stripPrefixCI ("versus").data (l.dropWhile pyIsSpace) with
  | none => false
  | some r1 =>
    let r2 := match r1 with
      | '.' :: t => t
      | _ => r1
    r2.all pyIsSpace

/-! ### IGNORE_HEAD and is_meta_line (lines 17 to 51) -/

/-- The plain literal alternatives of IGNORE_HEAD. -/
def ignoreHeadLits : List (List Char) :=
  [("SUPREME COURT OF INDIA").data, ("IT WILL BE APPRECIATED").data,
   ("LISTED BEFORE").data, ("DAILY CAUSE LIST").data, ("NOTE").data,
   ("MISCELLANEOUS HEARING").data, ("PUBLIC INTEREST LITIGATIONS").data,
   ("Petitioner/Respondent").data]

/-- Match at one position of the SNo. Case No. alternative of IGNORE_HEAD. -/
def matchSNoAt (l : List Char) : Bool :=
  match stripPrefixCI ("SNo.").data l with
  | none => false
  | some r1 => (stripPrefixCI ("Case No.").data (r1.dropWhile pyIsSpace)).isSome

/-- Search of IGNORE_HEAD in a line. -/
def searchIgnoreHead (l : List Char) : Bool :=
  ignoreHeadLits.any (fun p => containsCI p l) || searchWith matchSNoAt l

/-- Search with a word boundary required before the matched position; the flag
tells whether the previous character is a word character. -/
def searchBoundWith (m : List Char → Bool) : Bool → List Char → Bool
  | prevW, [] => !prevW && m []
  | prevW, c :: rest => (!prevW && m (c :: rest)) || searchBoundWith m (isWordChar c) rest

/-- Match at one position of the literal No. of the second meta rule. -/
def matchNoDotAt (l : List Char) : Bool := startsWithL ("No.").data l

/-- Search of the pattern No. preceded by a word boundary, case-sensitively. -/
def searchNoDotTok (l : List Char) : Bool := searchBoundWith matchNoDotAt false l

/-- The Roman numeral letters of the third meta rule. -/
def romanLetters : List Char := ['I', 'V', 'X', 'L', 'C']

/-- Full match of one or more Roman numeral letters with an optional hyphen and
capital letter suffix. -/
def isRomanFull (l : List Char) : Bool :=
  let r := l.takeWhile (fun c => romanLetters.contains c)
  !r.isEmpty &&
    match l.drop r.length with
    | [] => true
    | ['-', c] => 65 ≤ c.toNat && c.toNat ≤ 90
    | _ => false

/-- Full match of a nonempty run of digits, slashes, parentheses, periods and
hyphens (the fourth meta rule). -/
def isPunctNumFull (l : List Char) : Bool :=
  !l.isEmpty && l.all (fun c => isPyDigit c || c = '/' || c = '(' || c = ')' || c = '.' || c = '-')

/-- Match at one position of PIL followed by -W or a word boundary. -/
def matchPILAt (l : List Char) : Bool :=
  startsWithL ("PIL").data l &&
    (startsWithL ("-W").data (l.drop 3) ||
      match l.drop 3 with
      | [] => true
      | c :: _ => !isWordChar c)

/-- Search of the PIL pattern with its leading word boundary. -/
def searchPILTok (l : List Char) : Bool := searchBoundWith matchPILAt false l

/-- The literal alternatives of the miscellaneous-filing rule. -/
def iaEtcLits : List (List Char) :=
  [("IA No.").data, ("FOR ADMISSION").data, ("EXEMPTION FROM FILING").data,
   ("CONDONATION OF DELAY").data, ("O.T.").data]

/-- Case-insensitive search of the miscellaneous-filing alternatives. -/
def searchIaEtc (l : List Char) : Bool := iaEtcLits.any (fun p => containsCI p l)

/-- is_meta_line (lines 36 to 51): the disjunction of the seven boilerplate
rules, in source order. -/
def is_meta_line (l : List Char) : Bool :=
  searchIgnoreHead l || searchNoDotTok l || isRomanFull l || isPunctNumFull l ||
    searchPILTok l || searchIaEtc l || decide (l = ("Connected").data)

/-! ### Page model and geometry (lines 54 to 77) -/

/-- An exact fraction with positive denominator, modelling the real-valued
page coordinates (floats in the source) without rounding. -/
structure Q2 where
  num : Int
  den : Int

/-- The fraction n over 1. -/
def q2OfInt (n : Int) : Q2 := ⟨n, 1⟩

/-- Strict comparison of fractions by cross multiplication. -/
def q2Lt (a b : Q2) : Bool := a.num * b.den < b.num * a.den

/-- Non-strict comparison of fractions by cross multiplication. -/
def q2Le (a b : Q2) : Bool := a.num * b.den ≤ b.num * a.den

/-- Value equality of fractions by cross multiplication. -/
def q2Eq (a b : Q2) : Bool := a.num * b.den = b.num * a.den

/-- Product of fractions. -/
def q2Mul (a b : Q2) : Q2 := ⟨a.num * b.num, a.den * b.den⟩

/-- Sum of fractions. -/
def q2Add (a b : Q2) : Q2 := ⟨a.num * b.den + b.num * a.den, a.den * b.den⟩

/-- The smaller fraction, as the Python min of two floats. -/
def q2Min (a b : Q2) : Q2 := if q2Le a b then a else b

/-- The larger fraction, as the Python max of two floats. -/
def q2Max (a b : Q2) : Q2 := if q2Le b a then a else b

/-- The floor of a fraction, by floor division of the numerator. -/
def q2Floor (a : Q2) : Int := Int.fdiv a.num a.den

/-- A positioned word as the extraction engine supplies it. -/
structure PdfWord where
  x0 : Q2
  y0 : Q2
  x1 : Q2
  y1 : Q2
  text : List Char

/-- A positioned text block as the extraction engine supplies it. -/
structure PdfBlock where
  x0 : Q2
  y0 : Q2
  x1 : Q2
  y1 : Q2
  text : List Char

/-- One page: whole text, blocks in native order, words, and dimensions. -/
structure PdfPage where
  text : List Char
  blocks : List PdfBlock
  words : List PdfWord
  width : Q2
  height : Q2

/-- The header scan of detect_court_number over blocks, stopping at the first
block whose bottom edge passes 180. -/
def scanHeaderBlocks : List PdfBlock → Option Nat
  | [] => none
  | b :: bs =>
    if q2Lt (q2OfInt 180) b.y1 then none
    else if searchWith matchChiefAt b.text then some 1
    else
      match searchOptWith matchCourtNumAt b.text with
      | some n => some n
      | none => scanHeaderBlocks bs

/-- detect_court_number (lines 54 to 66): the Chief Justice phrase fixes court
1; otherwise the first COURT NO match in the page text; otherwise the header
block scan; otherwise none. -/
def detect_court_number (pg : PdfPage) : Option Nat :=
  if searchWith matchChiefAt pg.text then some 1
  else
    match searchOptWith matchCourtNumAt pg.text with
    | some n => some n
    | none => scanHeaderBlocks pg.blocks

/-- page_split_x (lines 68 to 77): the minimum start of an advocate word in the
upper band, else the maximum end of a petitioner/respondent word plus 10, else
seventy percent of the page width. -/
def page_split_x (pg : PdfPage) : Q2 :=
  let adv := pg.words.filter
    (fun w => startsWithL ("advocate").data (pyLower w.text) &&
      q2Lt w.y0 (q2Mul pg.height ⟨35, 100⟩))
  match adv with
  | w :: ws => ws.foldl (fun m u => q2Min m u.x0) w.x0
  | [] =>
    let pr := pg.words.filter
      (fun w => containsLit ("petitioner/respondent").data (pyLower w.text) &&
        q2Lt w.y0 (q2Mul pg.height ⟨35, 100⟩))
    match pr with
    | w :: ws => q2Add (ws.foldl (fun m u => q2Max m u.x1) w.x1) (q2OfInt 10)
    | [] => q2Mul pg.width ⟨7, 10⟩

/-- Round half to even, modelling Python round of coordinates: the fractional
part against one half decides between floor and floor plus one, with ties to
the even integer. -/
def roundHalfEvenZ (q : Q2) : Int :=
  let n := q2Floor q
  let r2 := (q.num - n * q.den) * 2
  if r2 < q.den then n
  else if r2 > q.den then n + 1
  else if n % 2 = 0 then n else n + 1

/-- Rounding to one decimal place. -/
def round1 (q : Q2) : Q2 := ⟨roundHalfEvenZ (q2Mul q ⟨10, 1⟩), 10⟩

/-- The block reading order of parse_pdf: by rounded top edge, then rounded
left edge; a stable sort under this relation models the Python stable sort. -/
def blockKeyLE (b b2 : PdfBlock) : Prop :=
  (q2Lt (round1 b.y0) (round1 b2.y0) ||
    (q2Eq (round1 b.y0) (round1 b2.y0) && q2Le (round1 b.x0) (round1 b2.x0))) = true

instance : DecidableRel blockKeyLE := fun b b2 => by
  unfold blockKeyLE; infer_instance

/-! ### Entries and the per-page state machine (lines 80 to 128) -/

/-- One parsed record under construction or finished. -/
structure Entry where
  court : Option Nat
  serial : List Char
  petitioner : Option (List Char)
  respondent : Option (List Char)
  page : Nat
deriving DecidableEq

/-- The per-page machine state: finished entries of the page in creation
order, the entry under construction, and the respondent-capture flag. -/
structure PState where
  done : List Entry
  current : Option Entry
  captureResp : Bool

/-- Helper for splitLines. -/
def splitLinesAux : List Char → List Char → List (List Char)
  | [], acc => if acc.isEmpty then [] else [acc.reverse]
  | c :: cs, acc =>
    if c = '\n' then acc.reverse :: splitLinesAux cs []
    else splitLinesAux cs (c :: acc)

/-- Python str.splitlines restricted to newline separators: a trailing newline
produces no final empty line. -/
def splitLines (l : List Char) : List (List Char) := splitLinesAux l []

/-- The transition of the state machine on one raw line (lines 98 to 126): the
line is stripped; an empty line is skipped; in the left column a serial match
opens a new entry; otherwise a meta line is dropped, a versus line sets the
capture flag, and a left-column content line fills the first open field of the
current entry. -/
def stepLine (court : Option Nat) (pno : Nat) (isLeft : Bool) (st : PState)
    (raw : List Char) : PState :=
  let line := pyStripWs raw
  if line.isEmpty then st
  else
    match (if isLeft then serialMatch line else none) with
    | some tok =>
      ⟨st.done ++ st.current.toList, some ⟨court, tok, none, none, pno⟩, false⟩
    | none =>
      if is_meta_line line then st
      else if isVersusLine line then { st with captureResp := true }
      else if isLeft then
        match st.current with
        | none => st
        | some cur =>
          if cur.petitioner = none ∧ st.captureResp = false then
            { st with current := some { cur with petitioner := some (smartTitle line) } }
          else if st.captureResp = true ∧ cur.respondent = none then
            { st with
                current := some { cur with respondent := some (smartTitle line) }
                captureResp := false }
          else st
      else st

/-- Process one page: compute the split, sort the blocks into reading order,
run the state machine from the fresh initial state over every line of every
block, and return the entries created on the page in creation order. -/
def processPage (court : Option Nat) (pg : PdfPage) (pno : Nat) : List Entry :=
  let split := page_split_x pg
  let bs := List.insertionSort blockKeyLE pg.blocks
  let final := bs.foldl
    (fun st b => (splitLines b.text).foldl (stepLine court pno (q2Lt b.x0 split)) st)
    ⟨[], none, false⟩
  final.done ++ final.current.toList

/-- Truthiness of the optional court number, as Python or uses it: 0 and None
are falsy. -/
def truthyO : Option Nat → Bool
  | some c => c ≠ 0
  | none => false

/-- The Python expression detect or last on optional court numbers. -/
def pyOrCourt (d last : Option Nat) : Option Nat :=
  if truthyO d then d else last

/-- The page loop of parse_pdf: each page resolves its court from detection
with fallback to the carried value, updates the carried value when the result
is truthy, and contributes its entries. -/
def parseAux : List PdfPage → Option Nat → Nat → List Entry
  | [], _, _ => []
  | pg :: rest, last, pno =>
    let court := pyOrCourt (detect_court_number pg) last
    let last2 := if truthyO court then court else last
    processPage court pg pno ++ parseAux rest last2 (pno + 1)

/-- All entries appended by parse_pdf before the final filter. -/
def parse_items (pages : List PdfPage) : List Entry := parseAux pages none 1

/-- The final filter of parse_pdf (line 128): Python truthiness of the three
fields court, petitioner and respondent. -/
def entryTruthy (e : Entry) : Bool :=
  (match e.court with
   | some c => c ≠ 0
   | none => false) &&
  (match e.petitioner with
   | some p => !p.isEmpty
   | none => false) &&
  (match e.respondent with
   | some r => !r.isEmpty
   | none => false)

/-- parse_pdf (lines 80 to 128) on the abstract document. -/
def parse_pdf (pages : List PdfPage) : List Entry :=
  (parse_items pages).filter entryTruthy

/-- The carried court context after a list of pages, from a starting value:
exactly the last_court variable of parse_pdf. -/
def ctxAfter : List PdfPage → Option Nat → Option Nat
  | [], last => last
  | pg :: rest, last =>
    let court := pyOrCourt (detect_court_number pg) last
    let last2 := if truthyO court then court else last
    ctxAfter rest last2

/-- The court number in force on a page given the carried value. -/
def pageCourtOf (last : Option Nat) (pg : PdfPage) : Option Nat :=
  pyOrCourt (detect_court_number pg) last

/-- The most recent truthy detection over a list of pages, from a starting
value; the characterization the carried context satisfies. -/
def lastDetectFold : List PdfPage → Option Nat → Option Nat
  | [], l => l
  | pg :: rest, l =>
    lastDetectFold rest
      (match detect_court_number pg with
       | some c => if c = 0 then l else some c
       | none => l)

/-! ### RecordIndex (lines 130 to 139) and the lookup loops -/

/-- Rendering of the optional court number inside a key or a formatted line. -/
def optCourtStr : Option Nat → List Char
  | some c => natToChars c
  | none => ("None").data

/-- Rendering of an optional name field, as a Python f-string renders None. -/
def optFieldStr : Option (List Char) → List Char
  | some l => l
  | none => ("None").data

/-- The index key of an entry, the f-string court/serial. -/
def entryKey (e : Entry) : List Char := optCourtStr e.court ++ '/' :: e.serial

/-- Iteration of build_index over items with the accumulated association list. -/
def buildIndexAux : List (List Char × Entry) → List Entry → List (List Char × Entry)
  | idx, [] => idx
  | idx, it :: rest =>
    buildIndexAux
      (if (idx.find? (fun p => decide (p.1 = entryKey it))).isSome then idx
       else idx ++ [(entryKey it, it)])
      rest

/-- build_index (lines 130 to 136): an insertion-ordered association list with
first-wins insertion. -/
def build_index (items : List Entry) : List (List Char × Entry) :=
  buildIndexAux [] items

/-- Dictionary lookup idx.get on the association list. -/
def lookupKey (idx : List (List Char × Entry)) (k : List Char) : Option Entry :=
  (idx.find? (fun p => decide (p.1 = k))).map (fun p => p.2)

/-- format_line (lines 138 to 139). -/
def format_line (e : Entry) : List Char :=
  optCourtStr e.court ++ '/' :: e.serial ++ (" - ").data ++ optFieldStr e.petitioner ++
    (" Vs ").data ++ optFieldStr e.respondent

/-- The lookup loops of main and of app.py: each requested reference becomes
one output line, a hit formatted and a miss rendered as NOT FOUND. -/
def runRefs (idx : List (List Char × Entry)) (refs : List (List Char)) : List (List Char) :=
  refs.map
    (fun r =>
      match lookupKey idx r with
      | some e => format_line e
      | none => r ++ (" - NOT FOUND").data)

/-! ### The dump-all ordering (lines 152 to 156) -/

/-- The part of a key before the slash. -/
def keyCourtPart (k : List Char) : List Char := k.takeWhile (fun c => !(c = '/'))

/-- The part of a key after the slash. -/
def keySerialPart (k : List Char) : List Char := (k.dropWhile (fun c => !(c = '/'))).drop 1

/-- Exact decimal value of a serial token, modelling the float conversion of
the dump-all key function (exact on every serial the program constructs). -/
def parseDecQ (l : List Char) : ℚ :=
  let a := l.takeWhile isPyDigit
  match l.drop a.length with
  | '.' :: r2 =>
    let d := r2.takeWhile isPyDigit
    (parseNatDigits a : ℚ) + (parseNatDigits d : ℚ) / ((10 : ℚ) ^ d.length)
  | _ => (parseNatDigits a : ℚ)

/-- The dump-all comparison: court as integer, then serial as decimal. -/
def keyFnLE (k1 k2 : List Char) : Prop :=
  parseNatDigits (keyCourtPart k1) < parseNatDigits (keyCourtPart k2) ∨
    (parseNatDigits (keyCourtPart k1) = parseNatDigits (keyCourtPart k2) ∧
      parseDecQ (keySerialPart k1) ≤ parseDecQ (keySerialPart k2))

instance : DecidableRel keyFnLE := fun k1 k2 => by
  unfold keyFnLE; infer_instance

instance : IsTotal (List Char) keyFnLE := by
  constructor
  intro a b
  unfold keyFnLE
  rcases lt_trichotomy (parseNatDigits (keyCourtPart a)) (parseNatDigits (keyCourtPart b)) with
    h | h | h
  · exact Or.inl (Or.inl h)
  · rcases le_total (parseDecQ (keySerialPart a)) (parseDecQ (keySerialPart b)) with h2 | h2
    · exact Or.inl (Or.inr ⟨h, h2⟩)
    · exact Or.inr (Or.inr ⟨h.symm, h2⟩)
  · exact Or.inr (Or.inl h)

instance : IsTrans (List Char) keyFnLE := by
  constructor
  intro a b c hab hbc
  unfold keyFnLE at hab hbc ⊢
  rcases hab with h1 | ⟨h1, h2⟩
  · rcases hbc with h3 | ⟨h3, h4⟩
    · exact Or.inl (h1.trans h3)
    · exact Or.inl (h3 ▸ h1)
  · rcases hbc with h3 | ⟨h3, h4⟩
    · exact Or.inl (h1 ▸ h3)
    · exact Or.inr ⟨h1.trans h3, h2.trans h4⟩

/-- The sorted key list of the dump-all mode. -/
def sortedIndexKeys (idx : List (List Char × Entry)) : List (List Char) :=
  List.insertionSort keyFnLE (idx.map (fun p => p.1))

/-- The dump-all mode: format the indexed entries in sorted key order. -/
def dump_all (items : List Entry) : List (List Char) :=
  let idx := build_index items
  (sortedIndexKeys idx).map
    (fun k =>
      match lookupKey idx k with
      | some e => format_line e
      | none => [])

/-- The entries a machine state accounts for: the closed ones and the open
one, in creation order, as the shared items list of parse_pdf records them. -/
def entriesOf (st : PState) : List Entry := st.done ++ st.current.toList

/-- A one-block page fixture for concrete documents: a single left-column
block in the upper band of a 100 by 200 page with no word geometry. -/
def mkSimplePage (txt body : List Char) : PdfPage :=
  { text := txt
    blocks := [⟨q2OfInt 0, q2OfInt 0, q2OfInt 50, q2OfInt 10, body⟩]
    words := []
    width := q2OfInt 100
    height := q2OfInt 200 }

/-- Characters that the final strip of smart_title can never remove: not
whitespace and none of comma, period, hyphen. -/
def goodChar (c : Char) : Prop :=
  pyIsSpace c = false ∧ c ≠ ',' ∧ c ≠ '.' ∧ c ≠ '-'

/-! ### Claim-side definitions -/

/-- The preserved-token rule exactly as claim C5 words it: the abbreviation
set has ten elements and the token must match one case-sensitively. -/
def keptClaimC5 : List (List Char) :=
  [("U.P.").data, ("NCT").data, ("SLP").data, ("IA").data, ("Ltd.").data,
   ("CBI").data, ("GST").data, ("W.P.(C)").data, ("T.P.(C)").data, ("T.P.(Crl.)").data]

/-- The claimed preservation predicate of C5. -/
def preservedClaimC5 (w : List Char) : Prop :=
  w.any isPyDigit ∨ ('.' ∈ w ∧ pyUpperStr w = w) ∨ w ∈ keptClaimC5

/-- The amended preservation predicate: the fixed-set test uppercases the
token first and compares with the thirteen-element source set. -/
def preservedKeptAmended (w : List Char) : Prop :=
  w.any isPyDigit ∨ ('.' ∈ w ∧ pyUpperStr w = w) ∨ pyUpperStr w ∈ keptAbbrevs


theorem char_toNat_ofNat_valid (n : Nat) (h : Nat.isValidChar n) : (Char.ofNat n).toNat = n := by
  simp [Char.ofNat, h, Char.ofNatAux, Char.toNat]
  rfl

theorem char_eq_of_toNat_eq {c d : Char} (h : c.toNat = d.toNat) : c = d :=
  Char.eq_of_val_eq (UInt32.ext h)

theorem toLower_spec (c : Char) :
    (¬(65 ≤ c.toNat ∧ c.toNat ≤ 90) ∧ Char.toLower c = c) ∨
      (65 ≤ c.toNat ∧ c.toNat ≤ 90 ∧ (Char.toLower c).toNat = c.toNat + 32) := by
  by_cases h : c.toNat ≥ 65 ∧ c.toNat ≤ 90
  · right
    have hv : Nat.isValidChar (c.toNat + 32) := Or.inl (by omega)
    refine ⟨h.1, h.2, ?_⟩
    simp [Char.toLower, h, char_toNat_ofNat_valid _ hv]
  · left
    exact ⟨by omega, by simp [Char.toLower, h]⟩

theorem toUpper_spec (c : Char) :
    (¬(97 ≤ c.toNat ∧ c.toNat ≤ 122) ∧ Char.toUpper c = c) ∨
      (97 ≤ c.toNat ∧ c.toNat ≤ 122 ∧ (Char.toUpper c).toNat = c.toNat - 32) := by
  by_cases h : c.toNat ≥ 97 ∧ c.toNat ≤ 122
  · right
    have hv : Nat.isValidChar (c.toNat - 32) := Or.inl (by omega)
    refine ⟨h.1, h.2, ?_⟩
    simp [Char.toUpper, h, char_toNat_ofNat_valid _ hv]
  · left
    exact ⟨by omega, by simp [Char.toUpper, h]⟩

theorem toLower_toLower (c : Char) : Char.toLower (Char.toLower c) = Char.toLower c := by
  rcases toLower_spec c with ⟨h1, h2⟩ | ⟨h1, h2, h3⟩
  · rw [h2, h2]
  · rcases toLower_spec (Char.toLower c) with ⟨g1, g2⟩ | ⟨g1, g2, g3⟩
    · exact g2
    · omega

theorem toLower_toUpper (c : Char) : Char.toLower (Char.toUpper c) = Char.toLower c := by
  rcases toUpper_spec c with ⟨h1, h2⟩ | ⟨h1, h2, h3⟩
  · rw [h2]
  · rcases toLower_spec (Char.toUpper c) with ⟨g1, g2⟩ | ⟨g1, g2, g3⟩
    · omega
    · rcases toLower_spec c with ⟨k1, k2⟩ | ⟨k1, k2, k3⟩
      · rw [k2]
        apply char_eq_of_toNat_eq
        omega
      · omega

theorem toUpper_toLower (c : Char) : Char.toUpper (Char.toLower c) = Char.toUpper c := by
  rcases toLower_spec c with ⟨h1, h2⟩ | ⟨h1, h2, h3⟩
  · rw [h2]
  · rcases toUpper_spec (Char.toLower c) with ⟨g1, g2⟩ | ⟨g1, g2, g3⟩
    · omega
    · rcases toUpper_spec c with ⟨k1, k2⟩ | ⟨k1, k2, k3⟩
      · rw [k2]
        apply char_eq_of_toNat_eq
        omega
      · omega

theorem toUpper_toUpper (c : Char) : Char.toUpper (Char.toUpper c) = Char.toUpper c := by
  rcases toUpper_spec c with ⟨h1, h2⟩ | ⟨h1, h2, h3⟩
  · rw [h2, h2]
  · rcases toUpper_spec (Char.toUpper c) with ⟨g1, g2⟩ | ⟨g1, g2, g3⟩
    · exact g2
    · omega


theorem bool_eq_of_iff {a b : Bool} (h : a = true ↔ b = true) : a = b := by
  cases a <;> cases b <;> simp_all

theorem pyLower_pyLower (w : List Char) : pyLower (pyLower w) = pyLower w := by
  unfold pyLower
  rw [List.map_map]
  apply List.map_congr_left
  intro c _
  exact toLower_toLower c

theorem pyLower_pyCapitalize (w : List Char) : pyLower (pyCapitalize w) = pyLower w := by
  cases w with
  | nil => rfl
  | cons c cs =>
    unfold pyCapitalize pyLower
    simp only [List.map_cons, List.map_map]
    rw [toLower_toUpper]
    congr 1
    apply List.map_congr_left
    intro d _
    exact toLower_toLower d

theorem pyUpperStr_pyLower (w : List Char) : pyUpperStr (pyLower w) = pyUpperStr w := by
  unfold pyUpperStr pyLower
  rw [List.map_map]
  apply List.map_congr_left
  intro c _
  exact toUpper_toLower c

theorem pyUpperStr_pyCapitalize (w : List Char) : pyUpperStr (pyCapitalize w) = pyUpperStr w := by
  cases w with
  | nil => rfl
  | cons c cs =>
    unfold pyCapitalize pyUpperStr
    simp only [List.map_cons, List.map_map]
    rw [toUpper_toUpper]
    congr 1
    apply List.map_congr_left
    intro d _
    exact toUpper_toLower d

theorem transformTok_idem (i : Nat) (w : List Char) :
    transformTok i (transformTok i w) = transformTok i w := by
  by_cases hP : w.any isPyDigit ∨ ('.' ∈ w ∧ pyUpperStr w = w) ∨ pyUpperStr w ∈ keptAbbrevs
  · have hw : transformTok i w = w := by rw [transformTok, if_pos hP]
    rw [hw]
    exact hw
  · have hw : transformTok i w =
        if pyLower w ∈ lowerWords ∧ i ≠ 0 then pyLower w else pyCapitalize (pyLower w) := by
      rw [transformTok, if_neg hP]
    by_cases hC : pyLower w ∈ lowerWords ∧ i ≠ 0
    · rw [hw, if_pos hC]
      by_cases hPv : (pyLower w).any isPyDigit ∨
          ('.' ∈ pyLower w ∧ pyUpperStr (pyLower w) = pyLower w) ∨
          pyUpperStr (pyLower w) ∈ keptAbbrevs
      · rw [transformTok, if_pos hPv]
      · rw [transformTok, if_neg hPv, pyLower_pyLower, if_pos hC]
    · rw [hw, if_neg hC]
      by_cases hPv : (pyCapitalize (pyLower w)).any isPyDigit ∨
          ('.' ∈ pyCapitalize (pyLower w) ∧
            pyUpperStr (pyCapitalize (pyLower w)) = pyCapitalize (pyLower w)) ∨
          pyUpperStr (pyCapitalize (pyLower w)) ∈ keptAbbrevs
      · rw [transformTok, if_pos hPv]
      · rw [transformTok, if_neg hPv, pyLower_pyCapitalize, pyLower_pyLower, if_neg hC]


theorem wordsAux_mem_prop (Q : Char → Prop) :
    ∀ (l acc : List Char), (∀ c ∈ l, pyIsSpace c = false → Q c) → (∀ c ∈ acc, Q c) →
      ∀ w ∈ wordsAux l acc, w ≠ [] ∧ ∀ c ∈ w, Q c := by
  intro l
  induction l with
  | nil =>
    intro acc _ hacc w hw
    unfold wordsAux at hw
    by_cases he : acc.isEmpty
    · simp [he] at hw
    · simp [he] at hw
      subst hw
      refine ⟨by simpa using fun h => he (by simp [h]), ?_⟩
      intro c hc
      exact hacc c (by simpa using hc)
  | cons c cs ih =>
    intro acc hl hacc w hw
    unfold wordsAux at hw
    by_cases hsp : pyIsSpace c
    · simp only [hsp, if_true] at hw
      by_cases he : acc.isEmpty
      · simp only [he, if_true] at hw
        exact ih [] (fun d hd hnd => hl d (by simp [hd]) hnd) (by simp) w hw
      · simp only [he, if_false] at hw
        rcases List.mem_cons.mp hw with hw1 | hw2
        · subst hw1
          refine ⟨by simpa using fun h => he (by simp [h]), ?_⟩
          intro d hd
          exact hacc d (by simpa using hd)
        · exact ih [] (fun d hd hnd => hl d (by simp [hd]) hnd) (by simp) w hw2
    · simp only [hsp, if_false] at hw
      refine ih (c :: acc) (fun d hd hnd => hl d (by simp [hd]) hnd) ?_ w hw
      intro d hd
      rcases List.mem_cons.mp hd with hd1 | hd2
      · subst hd1
        exact hl d (by simp) (by simpa using hsp)
      · exact hacc d hd2

theorem wordsAux_append_word :
    ∀ (w l acc : List Char), (∀ c ∈ w, pyIsSpace c = false) →
      wordsAux (w ++ l) acc = wordsAux l (w.reverse ++ acc) := by
  intro w
  induction w with
  | nil => intro l acc _; rfl
  | cons c cs ih =>
    intro l acc hw
    have hc : pyIsSpace c = false := hw c (by simp)
    have h1 : wordsAux ((c :: cs) ++ l) acc = wordsAux (cs ++ l) (c :: acc) := by
      show wordsAux (c :: (cs ++ l)) acc = wordsAux (cs ++ l) (c :: acc)
      simp only [wordsAux, hc, Bool.false_eq_true, if_false]
    rw [h1, ih l (c :: acc) (fun d hd => hw d (by simp [hd]))]
    simp

theorem joinSp_ne_nil (w : List Char) (ws : List (List Char)) (hw : w ≠ []) :
    joinSp (w :: ws) ≠ [] := by
  cases ws with
  | nil => simpa [joinSp] using hw
  | cons w2 ws2 =>
    simp only [joinSp]
    intro h
    rcases List.append_eq_nil.mp h with ⟨h1, _⟩
    exact hw h1

theorem pyWords_joinSp :
    ∀ (toks : List (List Char)), (∀ w ∈ toks, w ≠ [] ∧ ∀ c ∈ w, pyIsSpace c = false) →
      pyWords (joinSp toks) = toks := by
  intro toks
  induction toks with
  | nil => intro _; rfl
  | cons w ws ih =>
    intro h
    have hw := h w (by simp)
    cases ws with
    | nil =>
      show wordsAux (joinSp [w]) [] = [w]
      have : joinSp [w] = w ++ [] := by simp [joinSp]
      rw [this, wordsAux_append_word w [] [] hw.2]
      unfold wordsAux
      have : (w.reverse ++ []).isEmpty = false := by
        simp [List.isEmpty_iff, hw.1]
      rw [this]
      simp
    | cons w2 ws2 =>
      show wordsAux (joinSp (w :: w2 :: ws2)) [] = w :: w2 :: ws2
      have hj : joinSp (w :: w2 :: ws2) = w ++ ' ' :: joinSp (w2 :: ws2) := by
        simp [joinSp]
      rw [hj, wordsAux_append_word w _ [] hw.2]
      unfold wordsAux
      have hsp : pyIsSpace ' ' = true := by decide
      rw [hsp]
      have hne : (w.reverse ++ []).isEmpty = false := by
        simp [List.isEmpty_iff, hw.1]
      have ihx : wordsAux (joinSp (w2 :: ws2)) [] = w2 :: ws2 :=
        ih (fun u hu => h u (by simp [hu]))
      simp [hne, ihx, hw.1]


theorem collapseWsAux_word :
    ∀ (w l : List Char) (b : Bool), w ≠ [] → (∀ c ∈ w, pyIsSpace c = false) →
      collapseWsAux (w ++ l) b = w ++ collapseWsAux l false := by
  intro w
  induction w with
  | nil => intro l b hne _; exact absurd rfl hne
  | cons c cs ih =>
    intro l b _ hw
    have hc : pyIsSpace c = false := hw c (by simp)
    simp only [List.cons_append, collapseWsAux, hc, Bool.false_eq_true, if_false]
    cases cs with
    | nil => rfl
    | cons d ds =>
      have hx := ih l false (by simp) (fun u hu => hw u (by simp [hu]))
      simp only [List.append_eq, hx]


theorem collapseWsAux_joinSp :
    ∀ (toks : List (List Char)) (b : Bool),
      (∀ w ∈ toks, w ≠ [] ∧ ∀ c ∈ w, pyIsSpace c = false) →
      collapseWsAux (joinSp toks) b = joinSp toks := by
  intro toks
  induction toks with
  | nil => intro b _; rfl
  | cons w ws ih =>
    intro b h
    have hw := h w (by simp)
    cases ws with
    | nil =>
      show collapseWsAux (joinSp [w]) b = joinSp [w]
      have hj : joinSp [w] = w ++ [] := by simp [joinSp]
      rw [hj, collapseWsAux_word w [] b hw.1 hw.2]
      rfl
    | cons w2 ws2 =>
      have hj : joinSp (w :: w2 :: ws2) = w ++ ' ' :: joinSp (w2 :: ws2) := by
        simp [joinSp]
      rw [hj, collapseWsAux_word w _ b hw.1 hw.2]
      have hsp : pyIsSpace ' ' = true := by decide
      have : collapseWsAux (' ' :: joinSp (w2 :: ws2)) false =
          ' ' :: collapseWsAux (joinSp (w2 :: ws2)) true := by
        simp [collapseWsAux, hsp]
      rw [this, ih true (fun u hu => h u (by simp [hu]))]

theorem collapseWs_joinSp (toks : List (List Char))
    (h : ∀ w ∈ toks, w ≠ [] ∧ ∀ c ∈ w, pyIsSpace c = false) :
    collapseWs (joinSp toks) = joinSp toks :=
  collapseWsAux_joinSp toks false h

theorem dropWhile_eq_self_of_head (p : Char → Bool) (l : List Char)
    (h : ∀ c, l.head? = some c → p c = false) : l.dropWhile p = l := by
  cases l with
  | nil => rfl
  | cons c cs =>
    rw [List.dropWhile_cons]
    simp [h c rfl]

theorem stripP_eq_self (p : Char → Bool) (l : List Char)
    (h1 : ∀ c, l.head? = some c → p c = false)
    (h2 : ∀ c, l.getLast? = some c → p c = false) : stripP p l = l := by
  unfold stripP
  rw [dropWhile_eq_self_of_head p l h1]
  rw [dropWhile_eq_self_of_head p l.reverse (fun c hc => h2 c (by rwa [List.head?_reverse] at hc))]
  exact List.reverse_reverse l

theorem joinSp_head? (w : List Char) (ws : List (List Char)) (hw : w ≠ []) :
    (joinSp (w :: ws)).head? = w.head? := by
  cases ws with
  | nil => rfl
  | cons w2 ws2 =>
    show (w ++ ' ' :: joinSp (w2 :: ws2)).head? = w.head?
    rw [List.head?_append]
    cases w with
    | nil => exact absurd rfl hw
    | cons c cs => rfl

theorem joinSp_getLast? :
    ∀ (w : List Char) (ws : List (List Char)), (∀ u ∈ w :: ws, u ≠ []) →
      ∃ u ∈ w :: ws, (joinSp (w :: ws)).getLast? = u.getLast? := by
  intro w ws
  induction ws generalizing w with
  | nil => intro _; exact ⟨w, by simp, rfl⟩
  | cons w2 ws2 ih =>
    intro h
    obtain ⟨u, hu, he⟩ := ih w2 (fun v hv => h v (List.mem_cons_of_mem _ hv))
    refine ⟨u, List.mem_cons_of_mem _ hu, ?_⟩
    show (w ++ ' ' :: joinSp (w2 :: ws2)).getLast? = u.getLast?
    rw [List.getLast?_append]
    have hne : joinSp (w2 :: ws2) ≠ [] :=
      joinSp_ne_nil w2 ws2 (h w2 (by simp))
    have : (' ' :: joinSp (w2 :: ws2)).getLast? = (joinSp (w2 :: ws2)).getLast? := by
      cases hj : joinSp (w2 :: ws2) with
      | nil => exact absurd hj hne
      | cons d ds => simp [List.getLast?_cons_cons]
    rw [this, he]
    cases hu2 : u.getLast? with
    | some d => rfl
    | none =>
      rcases List.getLast?_eq_none_iff.mp hu2 with rfl
      exact absurd rfl (h [] (List.mem_cons_of_mem _ hu))



theorem goodChar_toLower (c : Char) (h : goodChar c) : goodChar (Char.toLower c) := by
  rcases toLower_spec c with ⟨_, he⟩ | ⟨h1, h2, h3⟩
  · rwa [he]
  · refine ⟨?_, ?_, ?_, ?_⟩
    · simp only [pyIsSpace, Bool.or_eq_false_iff, decide_eq_false_iff_not]
      omega
    · intro he
      have h44 : (Char.toLower c).toNat = 44 := by rw [he]; decide
      omega
    · intro he
      have h46 : (Char.toLower c).toNat = 46 := by rw [he]; decide
      omega
    · intro he
      have h45 : (Char.toLower c).toNat = 45 := by rw [he]; decide
      omega

theorem goodChar_toUpper (c : Char) (h : goodChar c) : goodChar (Char.toUpper c) := by
  rcases toUpper_spec c with ⟨_, he⟩ | ⟨h1, h2, h3⟩
  · rwa [he]
  · refine ⟨?_, ?_, ?_, ?_⟩
    · simp only [pyIsSpace, Bool.or_eq_false_iff, decide_eq_false_iff_not]
      omega
    · intro he
      have h44 : (Char.toUpper c).toNat = 44 := by rw [he]; decide
      omega
    · intro he
      have h46 : (Char.toUpper c).toNat = 46 := by rw [he]; decide
      omega
    · intro he
      have h45 : (Char.toUpper c).toNat = 45 := by rw [he]; decide
      omega

theorem transformTok_chars (Q : Char → Prop)
    (hQl : ∀ c, Q c → Q (Char.toLower c)) (hQu : ∀ c, Q c → Q (Char.toUpper c))
    (i : Nat) (w : List Char) (hw : ∀ c ∈ w, Q c) :
    ∀ c ∈ transformTok i w, Q c := by
  have hlow : ∀ c ∈ pyLower w, Q c := by
    intro c hc
    obtain ⟨d, hd, rfl⟩ := List.mem_map.mp hc
    exact hQl d (hw d hd)
  intro c hc
  unfold transformTok at hc
  split at hc
  · exact hw c hc
  · split at hc
    · exact hlow c hc
    · cases hpl : pyLower w with
      | nil => rw [hpl] at hc; simp [pyCapitalize] at hc
      | cons d ds =>
        rw [hpl] at hc
        simp only [pyCapitalize] at hc
        have hdQ : Q d := hlow d (by rw [hpl]; simp)
        rcases List.mem_cons.mp hc with rfl | hc2
        · exact hQu d hdQ
        · obtain ⟨e, he, rfl⟩ := List.mem_map.mp hc2
          exact hQl e (hlow e (by rw [hpl]; simp [he]))

theorem transformTok_ne_nil (i : Nat) (w : List Char) (hw : w ≠ []) :
    transformTok i w ≠ [] := by
  unfold transformTok
  split
  · exact hw
  · split
    · simpa [pyLower] using hw
    · cases w with
      | nil => exact absurd rfl hw
      | cons c cs => simp [pyLower, pyCapitalize]

theorem mapWithIdx_mem {f : Nat → List Char → List Char} :
    ∀ (n : Nat) (toks : List (List Char)) (w : List Char),
      w ∈ mapWithIdx f n toks → ∃ i u, u ∈ toks ∧ w = f i u := by
  intro n toks
  induction toks generalizing n with
  | nil => intro w hw; simp [mapWithIdx] at hw
  | cons u us ih =>
    intro w hw
    rcases List.mem_cons.mp hw with rfl | hw2
    · exact ⟨n, u, by simp, rfl⟩
    · obtain ⟨i, v, hv, he⟩ := ih (n + 1) w hw2
      exact ⟨i, v, by simp [hv], he⟩

theorem mapWithIdx_transform_idem :
    ∀ (n : Nat) (toks : List (List Char)),
      mapWithIdx transformTok n (mapWithIdx transformTok n toks) =
        mapWithIdx transformTok n toks := by
  intro n toks
  induction toks generalizing n with
  | nil => rfl
  | cons u us ih =>
    simp only [mapWithIdx, transformTok_idem]
    rw [ih (n + 1)]

theorem mem_collapseWsAux :
    ∀ (l : List Char) (b : Bool) (c : Char), c ∈ collapseWsAux l b → c ∈ l ∨ c = ' ' := by
  intro l
  induction l with
  | nil => intro b c hc; simp [collapseWsAux] at hc
  | cons d ds ih =>
    intro b c hc
    unfold collapseWsAux at hc
    by_cases hd : pyIsSpace d
    · simp only [hd, if_true] at hc
      cases b with
      | true =>
        rcases ih true c hc with h | h
        · exact Or.inl (by simp [h])
        · exact Or.inr h
      | false =>
        rcases List.mem_cons.mp hc with rfl | hc2
        · exact Or.inr rfl
        · rcases ih true c hc2 with h | h
          · exact Or.inl (by simp [h])
          · exact Or.inr h
    · simp only [hd, Bool.false_eq_true, if_false] at hc
      rcases List.mem_cons.mp hc with rfl | hc2
      · exact Or.inl (by simp)
      · rcases ih false c hc2 with h | h
        · exact Or.inl (by simp [h])
        · exact Or.inr h

theorem mem_stripP (p : Char → Bool) (l : List Char) (c : Char) (hc : c ∈ stripP p l) :
    c ∈ l := by
  unfold stripP at hc
  rw [List.mem_reverse] at hc
  have h1 := (List.dropWhile_sublist p).mem hc
  rw [List.mem_reverse] at h1
  exact (List.dropWhile_sublist p).mem h1


theorem goodChar_not_strip4 (c : Char) (h : goodChar c) : strip4.contains c = false := by
  have hsp : c ≠ ' ' := by
    intro he
    rw [he] at h
    exact absurd h.1 (by decide)
  simp [strip4, hsp, h.2.1, h.2.2.1, h.2.2.2]

theorem smartTitle_idem_of_good (s : List Char)
    (hs : ∀ c ∈ s, c ≠ ',' ∧ c ≠ '.' ∧ c ≠ '-') :
    smartTitle (smartTitle s) = smartTitle s := by
  set toks := pyWords (collapseWs (pyStripWs s)) with htoksdef
  have htoks : ∀ w ∈ toks, w ≠ [] ∧ ∀ c ∈ w, goodChar c := by
    apply wordsAux_mem_prop goodChar (collapseWs (pyStripWs s)) []
    · intro c hc hns
      rcases mem_collapseWsAux _ _ _ hc with h1 | h1
      · exact ⟨hns, hs c (mem_stripP _ _ _ h1)⟩
      · subst h1
        exact absurd hns (by decide)
    · simp
  set toks2 := mapWithIdx transformTok 0 toks with htoks2def
  have htoks2 : ∀ w ∈ toks2, w ≠ [] ∧ ∀ c ∈ w, goodChar c := by
    intro w hw
    obtain ⟨i, u, hu, rfl⟩ := mapWithIdx_mem 0 toks w hw
    exact ⟨transformTok_ne_nil i u (htoks u hu).1,
      transformTok_chars goodChar goodChar_toLower goodChar_toUpper i u (htoks u hu).2⟩
  have hgood2 : ∀ w ∈ toks2, w ≠ [] ∧ ∀ c ∈ w, pyIsSpace c = false := fun w hw =>
    ⟨(htoks2 w hw).1, fun c hc => ((htoks2 w hw).2 c hc).1⟩
  have hstrip4 : pyStripSet strip4 (joinSp toks2) = joinSp toks2 := by
    show stripP (fun c => strip4.contains c) (joinSp toks2) = joinSp toks2
    cases h2 : toks2 with
    | nil => rfl
    | cons w ws =>
      apply stripP_eq_self
      · intro c hc
        rw [joinSp_head? w ws ((htoks2 w (by rw [h2]; simp)).1)] at hc
        have hcw : c ∈ w := List.mem_of_mem_head? (by simp [hc])
        exact goodChar_not_strip4 c ((htoks2 w (by rw [h2]; simp)).2 c hcw)
      · intro c hc
        obtain ⟨u, hu, he⟩ :=
          joinSp_getLast? w ws (fun v hv => (htoks2 v (by rw [h2]; exact hv)).1)
        rw [he] at hc
        have hcu : c ∈ u := List.mem_of_mem_getLast? (by simp [hc])
        exact goodChar_not_strip4 c ((htoks2 u (by rw [h2]; exact hu)).2 c hcu)
  have hstripws : pyStripWs (joinSp toks2) = joinSp toks2 := by
    show stripP pyIsSpace (joinSp toks2) = joinSp toks2
    cases h2 : toks2 with
    | nil => rfl
    | cons w ws =>
      apply stripP_eq_self
      · intro c hc
        rw [joinSp_head? w ws ((htoks2 w (by rw [h2]; simp)).1)] at hc
        have hcw : c ∈ w := List.mem_of_mem_head? (by simp [hc])
        exact ((hgood2 w (by rw [h2]; simp)).2 c hcw)
      · intro c hc
        obtain ⟨u, hu, he⟩ :=
          joinSp_getLast? w ws (fun v hv => (htoks2 v (by rw [h2]; exact hv)).1)
        rw [he] at hc
        have hcu : c ∈ u := List.mem_of_mem_getLast? (by simp [hc])
        exact ((hgood2 u (by rw [h2]; exact hu)).2 c hcu)
  have hcol : collapseWs (joinSp toks2) = joinSp toks2 := collapseWs_joinSp toks2 hgood2
  have hwords : pyWords (joinSp toks2) = toks2 := pyWords_joinSp toks2 hgood2
  have hmap : mapWithIdx transformTok 0 toks2 = toks2 := by
    rw [htoks2def]
    exact mapWithIdx_transform_idem 0 toks
  have hA : smartTitle s = joinSp toks2 := by
    show pyStripSet strip4 (joinSp toks2) = joinSp toks2
    exact hstrip4
  rw [hA]
  show pyStripSet strip4
      (joinSp (mapWithIdx transformTok 0 (pyWords (collapseWs (pyStripWs (joinSp toks2)))))) =
    joinSp toks2
  rw [hstripws, hcol, hwords, hmap]
  exact hstrip4


/-- Claim C4, counterexample. -/
theorem c4_counterexample :
    smartTitle (",x").data = ("x").data ∧
      smartTitle (smartTitle (",x").data) ≠ smartTitle (",x").data := by
  constructor
  · decide
  · decide

/-- Claim C4, amended. -/
theorem c4_amended_theorem (s : List Char)
    (hs : ∀ c ∈ s, c ≠ ',' ∧ c ≠ '.' ∧ c ≠ '-') :
    smartTitle (smartTitle s) = smartTitle s :=
  smartTitle_idem_of_good s hs

/-- Witness for the amended claim C4. -/
theorem c4_amended_witness :
    (∀ c ∈ ("state OF up AND x").data, c ≠ ',' ∧ c ≠ '.' ∧ c ≠ '-') ∧
      smartTitle (smartTitle ("state OF up AND x").data) = smartTitle ("state OF up AND x").data :=
  ⟨by decide, c4_amended_theorem ("state OF up AND x").data (by decide)⟩

/-- Claim C5, counterexample. -/
theorem c5_counterexample :
    preservedClaimC5 ("T.P.(Crl.)").data ∧
      transformTok 0 ("T.P.(Crl.)").data = ("T.p.(crl.)").data ∧
      ¬ preservedClaimC5 ("nct").data ∧
      transformTok 1 ("nct").data = ("nct").data := by
  refine ⟨?_, by decide, ?_, by decide⟩
  · unfold preservedClaimC5
    decide
  · unfold preservedClaimC5
    decide

/-- Claim C5, amended. -/
theorem c5_amended_theorem :
    (∀ (i : Nat) (w : List Char), preservedKeptAmended w → transformTok i w = w) ∧
      transformTok 0 ("T.P.(Crl.)").data = ("T.p.(crl.)").data ∧
      transformTok 1 ("nct").data = ("nct").data := by
  refine ⟨?_, by decide, by decide⟩
  intro i w h
  unfold preservedKeptAmended at h
  rw [transformTok, if_pos h]

/-- Witness for the amended claim C5. -/
theorem c5_amended_witness :
    preservedKeptAmended ("nct").data ∧ transformTok 3 ("nct").data = ("nct").data := by
  have h : preservedKeptAmended ("nct").data := by unfold preservedKeptAmended; decide
  exact ⟨h, c5_amended_theorem.1 3 ("nct").data h⟩


theorem mem_takeWhile_pred {p : Char → Bool} :
    ∀ (l : List Char) (c : Char), c ∈ l.takeWhile p → p c = true := by
  intro l
  induction l with
  | nil => intro c hc; simp at hc
  | cons d ds ih =>
    intro c hc
    rw [List.takeWhile_cons] at hc
    by_cases hd : p d
    · simp only [hd, if_true] at hc
      rcases List.mem_cons.mp hc with rfl | hc2
      · exact hd
      · exact ih c hc2
    · simp [hd] at hc

theorem takeWhile_drop_split (p : Char → Bool) (l : List Char) :
    l = l.takeWhile p ++ l.drop (l.takeWhile p).length := by
  obtain ⟨t, ht⟩ := List.takeWhile_prefix (l := l) (p := p)
  have hlen : l.drop (l.takeWhile p).length = t := by
    have h2 := List.drop_left (l.takeWhile p) t
    rw [ht] at h2
    exact h2
  rw [hlen]
  exact ht.symm

theorem serialMatch_sound (l tok : List Char) (h : serialMatch l = some tok) :
    ∃ rest, l.dropWhile pyIsSpace = tok ++ rest ∧
      (∀ c, rest.head? = some c → isWordChar c = false) ∧
      ((tok ≠ [] ∧ tok.length ≤ 3 ∧ ∀ c ∈ tok, isPyDigit c = true) ∨
        (∃ ds ds2, tok = ds ++ '.' :: ds2 ∧ ds ≠ [] ∧ ds.length ≤ 3 ∧
          (∀ c ∈ ds, isPyDigit c = true) ∧ ds2 ≠ [] ∧ ∀ c ∈ ds2, isPyDigit c = true)) := by
  have hsplit := takeWhile_drop_split isPyDigit (l.dropWhile pyIsSpace)
  have hdsdig : ∀ c ∈ (l.dropWhile pyIsSpace).takeWhile isPyDigit, isPyDigit c = true :=
    fun c hc => mem_takeWhile_pred _ c hc
  simp only [serialMatch] at h
  split at h
  · exact absurd h (by simp)
  · next h0 =>
    simp only [Bool.or_eq_true, not_or, List.isEmpty_iff, decide_eq_true_eq, not_lt] at h0
    obtain ⟨hdsne, hdslen⟩ := h0
    split at h
    · next heq =>
      rw [heq] at hsplit
      simp only [Option.some_inj] at h
      subst h
      exact ⟨[], hsplit, by simp, Or.inl ⟨hdsne, hdslen, hdsdig⟩⟩
    · next c r2 heq =>
      rw [heq] at hsplit
      split at h
      · next hc =>
        subst hc
        have hds2dig : ∀ d ∈ r2.takeWhile isPyDigit, isPyDigit d = true :=
          fun d hd => mem_takeWhile_pred _ d hd
        have hsplit2 := takeWhile_drop_split isPyDigit r2
        split at h
        · next h2 =>
          simp only [Option.some_inj] at h
          subst h
          refine ⟨'.' :: r2, hsplit, ?_, Or.inl ⟨hdsne, hdslen, hdsdig⟩⟩
          intro d hd
          simp only [List.head?_cons, Option.some_inj] at hd
          subst hd
          decide
        · next h2 =>
          have hds2ne : r2.takeWhile isPyDigit ≠ [] := by
            intro he
            exact h2 (by simp [he])
          split at h
          · next heq2 =>
            rw [heq2] at hsplit2
            simp only [Option.some_inj] at h
            subst h
            refine ⟨[], ?_, by simp,
              Or.inr ⟨_, _, rfl, hdsne, hdslen, hdsdig, hds2ne, hds2dig⟩⟩
            conv_lhs => rw [hsplit, hsplit2]
            simp
          · next c2 r3 heq2 =>
            rw [heq2] at hsplit2
            split at h
            · next hw =>
              simp only [Option.some_inj] at h
              subst h
              refine ⟨'.' :: r2, hsplit, ?_, Or.inl ⟨hdsne, hdslen, hdsdig⟩⟩
              intro d hd
              simp only [List.head?_cons, Option.some_inj] at hd
              subst hd
              decide
            · next hw =>
              simp only [Option.some_inj] at h
              subst h
              refine ⟨c2 :: r3, ?_, ?_,
                Or.inr ⟨_, _, rfl, hdsne, hdslen, hdsdig, hds2ne, hds2dig⟩⟩
              · conv_lhs => rw [hsplit, hsplit2]
                simp
              · intro d hd
                simp only [List.head?_cons, Option.some_inj] at hd
                subst hd
                simpa using hw
      · next hc =>
        split at h
        · exact absurd h (by simp)
        · next hw =>
          simp only [Option.some_inj] at h
          subst h
          refine ⟨c :: r2, hsplit, ?_, Or.inl ⟨hdsne, hdslen, hdsdig⟩⟩
          intro d hd
          simp only [List.head?_cons, Option.some_inj] at hd
          subst hd
          simpa using hw

theorem serialMatch_isSome_iff (l : List Char) :
    (serialMatch l).isSome = true ↔
      ((l.dropWhile pyIsSpace).takeWhile isPyDigit ≠ [] ∧
        ((l.dropWhile pyIsSpace).takeWhile isPyDigit).length ≤ 3 ∧
        ∀ c, ((l.dropWhile pyIsSpace).drop
            ((l.dropWhile pyIsSpace).takeWhile isPyDigit).length).head? = some c →
          isWordChar c = false) := by
  simp only [serialMatch]
  split
  · next h0 =>
    simp only [Bool.or_eq_true, List.isEmpty_iff, decide_eq_true_eq] at h0
    simp only [Option.isSome_none, Bool.false_eq_true, false_iff]
    rintro ⟨h1, h2, _⟩
    rcases h0 with h0 | h0
    · exact h1 h0
    · omega
  · next h0 =>
    simp only [Bool.or_eq_true, not_or, List.isEmpty_iff, decide_eq_true_eq, not_lt] at h0
    obtain ⟨hdsne, hdslen⟩ := h0
    split
    · next heq =>
      rw [heq]
      simp [hdsne, hdslen]
    · next c r2 heq =>
      rw [heq]
      split
      · next hc =>
        subst hc
        have hword : isWordChar '.' = false := by decide
        split
        · simp only [Option.isSome_some, true_iff]
          refine ⟨hdsne, hdslen, ?_⟩
          intro d hd
          simp only [List.head?_cons, Option.some_inj] at hd
          subst hd
          exact hword
        · split
          · simp only [Option.isSome_some, true_iff]
            refine ⟨hdsne, hdslen, ?_⟩
            intro d hd
            simp only [List.head?_cons, Option.some_inj] at hd
            subst hd
            exact hword
          · split
            · simp only [Option.isSome_some, true_iff]
              refine ⟨hdsne, hdslen, ?_⟩
              intro d hd
              simp only [List.head?_cons, Option.some_inj] at hd
              subst hd
              exact hword
            · simp only [Option.isSome_some, true_iff]
              refine ⟨hdsne, hdslen, ?_⟩
              intro d hd
              simp only [List.head?_cons, Option.some_inj] at hd
              subst hd
              exact hword
      · next hc =>
        split
        · next hw =>
          simp only [Option.isSome_none, Bool.false_eq_true, false_iff]
          rintro ⟨_, _, h3⟩
          have hcf := h3 c (by simp)
          rw [hcf] at hw
          exact absurd hw (by simp)
        · next hw =>
          simp only [Option.isSome_some, true_iff]
          refine ⟨hdsne, hdslen, ?_⟩
          intro d hd
          simp only [List.head?_cons, Option.some_inj] at hd
          subst hd
          simpa using hw


theorem stepLine_serial (court : Option Nat) (pno : Nat) (st : PState) (raw tok : List Char)
    (h : serialMatch (pyStripWs raw) = some tok) :
    stepLine court pno true st raw =
      ⟨st.done ++ st.current.toList, some ⟨court, tok, none, none, pno⟩, false⟩ := by
  have hnil : serialMatch ([] : List Char) = none := by decide
  have hne : (pyStripWs raw).isEmpty = false := by
    cases hE : pyStripWs raw with
    | nil => rw [hE, hnil] at h; exact absurd h (by simp)
    | cons c cs => rfl
  simp only [stepLine, hne, Bool.false_eq_true, if_false, if_true, h]

theorem stepLine_no_new (court : Option Nat) (pno : Nat) (isLeft : Bool) (st : PState)
    (raw : List Char)
    (h : (if isLeft then serialMatch (pyStripWs raw) else none) = none) :
    (stepLine court pno isLeft st raw).done = st.done ∧
      (stepLine court pno isLeft st raw).current.map Entry.serial =
        st.current.map Entry.serial := by
  simp only [stepLine]
  by_cases hE : (pyStripWs raw).isEmpty
  · simp [hE]
  · simp only [hE, Bool.false_eq_true, if_false, h]
    split
    · exact ⟨rfl, rfl⟩
    · split
      · exact ⟨rfl, rfl⟩
      · split
        · split
          · exact ⟨rfl, rfl⟩
          · next cur hcur =>
            split
            · exact ⟨rfl, by simp [hcur]⟩
            · split
              · exact ⟨rfl, by simp [hcur]⟩
              · exact ⟨rfl, rfl⟩
        · exact ⟨rfl, rfl⟩

theorem stepLine_entries (court : Option Nat) (pno : Nat) (isLeft : Bool) (st : PState)
    (raw : List Char) (e : Entry) (he : e ∈ entriesOf (stepLine court pno isLeft st raw)) :
    (e.page = pno ∧ e.court = court) ∨
      ∃ e0 ∈ entriesOf st, e.page = e0.page ∧ e.court = e0.court := by
  simp only [stepLine] at he
  split at he
  · exact Or.inr ⟨e, he, rfl, rfl⟩
  · split at he
    · next tok heq =>
      simp only [entriesOf, List.append_assoc] at he
      rcases List.mem_append.mp he with h1 | h1
      · exact Or.inr ⟨e, by simp [entriesOf, h1], rfl, rfl⟩
      · rcases List.mem_append.mp h1 with h2 | h2
        · exact Or.inr ⟨e, by simp [entriesOf, h2], rfl, rfl⟩
        · simp only [Option.toList_some, List.mem_singleton] at h2
          subst h2
          exact Or.inl ⟨rfl, rfl⟩
    · split at he
      · exact Or.inr ⟨e, he, rfl, rfl⟩
      · split at he
        · exact Or.inr ⟨e, he, rfl, rfl⟩
        · split at he
          · split at he
            · exact Or.inr ⟨e, he, rfl, rfl⟩
            · next cur hcur =>
              split at he
              · simp only [entriesOf] at he
                rcases List.mem_append.mp he with h1 | h1
                · exact Or.inr ⟨e, by simp [entriesOf, h1], rfl, rfl⟩
                · simp only [Option.toList_some, List.mem_singleton] at h1
                  subst h1
                  exact Or.inr ⟨cur, by simp [entriesOf, hcur], rfl, rfl⟩
              · split at he
                · simp only [entriesOf] at he
                  rcases List.mem_append.mp he with h1 | h1
                  · exact Or.inr ⟨e, by simp [entriesOf, h1], rfl, rfl⟩
                  · simp only [Option.toList_some, List.mem_singleton] at h1
                    subst h1
                    exact Or.inr ⟨cur, by simp [entriesOf, hcur], rfl, rfl⟩
                · exact Or.inr ⟨e, he, rfl, rfl⟩
          · exact Or.inr ⟨e, he, rfl, rfl⟩

theorem foldl_lines_entries (court : Option Nat) (pno : Nat) (isLeft : Bool) :
    ∀ (lines : List (List Char)) (st : PState),
      (∀ e ∈ entriesOf st, e.page = pno ∧ e.court = court) →
      ∀ e ∈ entriesOf (lines.foldl (stepLine court pno isLeft) st),
        e.page = pno ∧ e.court = court := by
  intro lines
  induction lines with
  | nil => intro st h e he; exact h e he
  | cons ln rest ih =>
    intro st h e he
    refine ih (stepLine court pno isLeft st ln) ?_ e he
    intro e2 he2
    rcases stepLine_entries court pno isLeft st ln e2 he2 with h1 | ⟨e0, he0, hp, hc⟩
    · exact h1
    · rw [hp, hc]
      exact h e0 he0

theorem foldl_blocks_entries (court : Option Nat) (pno : Nat) (split : Q2) :
    ∀ (bs : List PdfBlock) (st : PState),
      (∀ e ∈ entriesOf st, e.page = pno ∧ e.court = court) →
      ∀ e ∈ entriesOf (bs.foldl
          (fun st b => (splitLines b.text).foldl
            (stepLine court pno (q2Lt b.x0 split)) st) st),
        e.page = pno ∧ e.court = court := by
  intro bs
  induction bs with
  | nil => intro st h e he; exact h e he
  | cons b rest ih =>
    intro st h e he
    exact ih _ (foldl_lines_entries court pno (q2Lt b.x0 split) (splitLines b.text) st h)
      e he

theorem processPage_entries (court : Option Nat) (pg : PdfPage) (pno : Nat) :
    ∀ e ∈ processPage court pg pno, e.page = pno ∧ e.court = court := by
  intro e he
  unfold processPage at he
  exact foldl_blocks_entries court pno (page_split_x pg) (List.insertionSort blockKeyLE pg.blocks)
    ⟨[], none, false⟩ (by simp [entriesOf]) e he

theorem ctxAfter_append (ps qs : List PdfPage) (last : Option Nat) :
    ctxAfter (ps ++ qs) last = ctxAfter qs (ctxAfter ps last) := by
  induction ps generalizing last with
  | nil => rfl
  | cons pg rest ih => simp only [List.cons_append, ctxAfter, List.append_eq, ih]

theorem parseAux_append (ps qs : List PdfPage) (last : Option Nat) (pno : Nat) :
    parseAux (ps ++ qs) last pno =
      parseAux ps last pno ++ parseAux qs (ctxAfter ps last) (pno + ps.length) := by
  induction ps generalizing last pno with
  | nil => simp [parseAux, ctxAfter]
  | cons pg rest ih =>
    simp only [List.cons_append, parseAux, ctxAfter, List.append_eq, ih, List.append_assoc, List.length_cons]
    have : pno + (rest.length + 1) = pno + 1 + rest.length := by omega
    rw [this]

theorem parseAux_page_range :
    ∀ (pages : List PdfPage) (last : Option Nat) (pno : Nat) (e : Entry),
      e ∈ parseAux pages last pno → pno ≤ e.page ∧ e.page < pno + pages.length := by
  intro pages
  induction pages with
  | nil => intro last pno e he; simp [parseAux] at he
  | cons pg rest ih =>
    intro last pno e he
    simp only [parseAux] at he
    rcases List.mem_append.mp he with h1 | h1
    · have := (processPage_entries _ pg pno e h1).1
      simp [this]
    · have := ih _ (pno + 1) e h1
      constructor
      · omega
      · simp only [List.length_cons]
        omega

theorem courtStep_eq (pg : PdfPage) (last : Option Nat) :
    (if truthyO (pyOrCourt (detect_court_number pg) last)
        then pyOrCourt (detect_court_number pg) last else last) =
      (match detect_court_number pg with
       | some c => if c = 0 then last else some c
       | none => last) := by
  cases hd : detect_court_number pg with
  | none =>
    simp [pyOrCourt, truthyO, ite_self]
  | some c =>
    by_cases hc : c = 0
    · subst hc
      simp [pyOrCourt, truthyO, ite_self]
    · simp [pyOrCourt, truthyO, hc]

theorem ctxAfter_cons (pg : PdfPage) (rest : List PdfPage) (last : Option Nat) :
    ctxAfter (pg :: rest) last =
      ctxAfter rest
        (match detect_court_number pg with
         | some c => if c = 0 then last else some c
         | none => last) := by
  show ctxAfter rest _ = _
  rw [courtStep_eq]

theorem ctxAfter_eq_lastDetectFold :
    ∀ (ps : List PdfPage) (last : Option Nat), ctxAfter ps last = lastDetectFold ps last := by
  intro ps
  induction ps with
  | nil => intro last; rfl
  | cons pg rest ih =>
    intro last
    rw [ctxAfter_cons, ih]
    rfl

theorem buildIndexAux_find? (k : List Char) :
    ∀ (items : List Entry) (idx : List (List Char × Entry)),
      (buildIndexAux idx items).find? (fun p => decide (p.1 = k)) =
        ((idx.find? (fun p => decide (p.1 = k))).or
          ((items.find? (fun e => decide (entryKey e = k))).map (fun e => (entryKey e, e)))) := by
  intro items
  induction items with
  | nil =>
    intro idx
    simp [buildIndexAux]
  | cons it rest ih =>
    intro idx
    simp only [buildIndexAux]
    rw [ih]
    by_cases hpres : (idx.find? (fun p => decide (p.1 = entryKey it))).isSome
    · rw [if_pos hpres]
      by_cases hk : entryKey it = k
      · subst hk
        obtain ⟨v, hv⟩ := Option.isSome_iff_exists.mp hpres
        rw [hv]
        rfl
      · rw [List.find?_cons]
        have hd : (decide (entryKey it = k)) = false := by simp [hk]
        rw [hd]
    · rw [if_neg hpres]
      rw [List.find?_append]
      by_cases hk : entryKey it = k
      · subst hk
        have hnone : idx.find? (fun p => decide (p.1 = entryKey it)) = none :=
          Option.not_isSome_iff_eq_none.mp hpres
        rw [hnone]
        rw [List.find?_cons]
        simp
      · have hone : List.find? (fun p => decide (p.1 = k)) [(entryKey it, it)] = none := by
          simp [List.find?_cons, hk]
        rw [hone, List.find?_cons]
        have hd : (decide (entryKey it = k)) = false := by simp [hk]
        rw [hd]
        simp

theorem lookup_build_index (items : List Entry) (k : List Char) :
    lookupKey (build_index items) k =
      items.find? (fun e => decide (entryKey e = k)) := by
  unfold lookupKey build_index
  rw [buildIndexAux_find? k items []]
  simp only [List.find?_nil, Option.none_or]
  cases hf : items.find? (fun e => decide (entryKey e = k)) with
  | none => rfl
  | some e => rfl

/-- Claim C1: every entry in the list returned by parse has a truthy court
number, a non-empty petitioner and a non-empty respondent; an entry missing
one of the fields does not appear in the returned list. -/
theorem c1_parse_output_complete (pages : List PdfPage) (e : Entry)
    (he : e ∈ parse_pdf pages) :
    (∃ c, e.court = some c ∧ c ≠ 0) ∧
      (∃ p, e.petitioner = some p ∧ p ≠ []) ∧
      (∃ r, e.respondent = some r ∧ r ≠ []) := by
  have h := (List.mem_filter.mp he).2
  obtain ⟨court, serial, pet, resp, page⟩ := e
  cases court <;> cases pet <;> cases resp <;> simp_all [entryTruthy, List.isEmpty_iff]

/-- Witness for claim C1 at a concrete one-page document. -/
theorem c1_witness :
    (∃ c, (⟨some 2, ("5").data, some (("Abc").data), some (("Def").data), 1⟩ : Entry).court =
        some c ∧ c ≠ 0) ∧
      (∃ p, (⟨some 2, ("5").data, some (("Abc").data), some (("Def").data), 1⟩ : Entry).petitioner =
        some p ∧ p ≠ []) ∧
      (∃ r, (⟨some 2, ("5").data, some (("Abc").data), some (("Def").data), 1⟩ : Entry).respondent =
        some r ∧ r ≠ []) :=
  c1_parse_output_complete
    [mkSimplePage (("COURT NO. 2").data) (("5\nAbc\nversus\nDef").data)] _ (by decide)


theorem stepLine_meta (court : Option Nat) (pno : Nat) (isLeft : Bool) (st : PState)
    (raw : List Char)
    (hm : (if isLeft then serialMatch (pyStripWs raw) else none) = none)
    (hmeta : is_meta_line (pyStripWs raw) = true) :
    stepLine court pno isLeft st raw = st := by
  simp only [stepLine]
  split
  · rfl
  · split
    · next tok heq =>
      rw [hm] at heq
      exact absurd heq (by simp)
    · next heq =>
      rfl

/-- Claim C2, counterexample: the left-column line 12 No. something matches
both the serial pattern and the boilerplate pattern, and the parser starts a
new entry with serial 12 from it instead of discarding it. -/
theorem c2_counterexample :
    serialMatch (("12 No. something").data) = some (("12").data) ∧
      is_meta_line (("12 No. something").data) = true ∧
      parse_pdf [mkSimplePage (("COURT NO. 3").data)
          (("12 No. something\nAbc\nversus\nDef").data)] =
        [⟨some 3, ("12").data, some (("Abc").data), some (("Def").data), 1⟩] := by
  refine ⟨by decide, by decide, by decide⟩

/-- Claim C2, amended: in the left column the serial check runs first, so a
line matching the serial pattern always opens a new entry, boilerplate or not;
the same line in the right column is discarded as boilerplate. -/
theorem c2_amended_theorem :
    (∀ (court : Option Nat) (pno : Nat) (st : PState) (line tok : List Char),
      serialMatch (pyStripWs line) = some tok →
        stepLine court pno true st line =
          ⟨st.done ++ st.current.toList, some ⟨court, tok, none, none, pno⟩, false⟩) ∧
      (∀ (court : Option Nat) (pno : Nat) (st : PState),
        stepLine court pno false st (("12 No. something").data) = st) := by
  constructor
  · intro court pno st line tok h
    exact stepLine_serial court pno st line tok h
  · intro court pno st
    exact stepLine_meta court pno false st (("12 No. something").data) rfl (by decide)

/-- Witness for the amended claim C2 at the concrete line. -/
theorem c2_amended_witness :
    serialMatch (pyStripWs (("12 No. something").data)) = some (("12").data) ∧
      stepLine (some 3) 1 true ⟨[], none, false⟩ (("12 No. something").data) =
        ⟨[], some ⟨some 3, ("12").data, none, none, 1⟩, false⟩ :=
  ⟨by decide, c2_amended_theorem.1 (some 3) 1 ⟨[], none, false⟩ _ _ (by decide)⟩


/-- Claim C3: serial marker detection on the two reference lines, the entry
the state machine opens for them, and the general characterization of the
serial pattern: a match captures a prefix of one to three digits with an
optional decimal sub-item followed by a word boundary, and a match exists
exactly when the maximal digit prefix has length one to three and ends at a
word boundary. -/
theorem c3_serial_marker :
    serialMatch (("115.30 Some text").data) = some (("115.30").data) ∧
      serialMatch (("1234 text").data) = none ∧
      (∀ (court : Option Nat) (pno : Nat) (st : PState),
        stepLine court pno true st (("115.30 Some text").data) =
          ⟨st.done ++ st.current.toList, some ⟨court, ("115.30").data, none, none, pno⟩, false⟩) ∧
      (∀ (court : Option Nat) (pno : Nat) (st : PState),
        (stepLine court pno true st (("1234 text").data)).done = st.done ∧
          (stepLine court pno true st (("1234 text").data)).current.map Entry.serial =
            st.current.map Entry.serial) ∧
      (∀ l tok, serialMatch l = some tok →
        ∃ rest, l.dropWhile pyIsSpace = tok ++ rest ∧
          (∀ c, rest.head? = some c → isWordChar c = false) ∧
          ((tok ≠ [] ∧ tok.length ≤ 3 ∧ ∀ c ∈ tok, isPyDigit c = true) ∨
            (∃ ds ds2, tok = ds ++ '.' :: ds2 ∧ ds ≠ [] ∧ ds.length ≤ 3 ∧
              (∀ c ∈ ds, isPyDigit c = true) ∧ ds2 ≠ [] ∧ ∀ c ∈ ds2, isPyDigit c = true))) ∧
      (∀ l, (serialMatch l).isSome = true ↔
        ((l.dropWhile pyIsSpace).takeWhile isPyDigit ≠ [] ∧
          ((l.dropWhile pyIsSpace).takeWhile isPyDigit).length ≤ 3 ∧
          ∀ c, ((l.dropWhile pyIsSpace).drop
              ((l.dropWhile pyIsSpace).takeWhile isPyDigit).length).head? = some c →
            isWordChar c = false)) :=
  ⟨by decide, by decide,
    fun court pno st => stepLine_serial court pno st _ _ (by decide),
    fun court pno st => stepLine_no_new court pno true st _ (by decide),
    serialMatch_sound, serialMatch_isSome_iff⟩

/-- Witness for claim C3 at a further concrete line. -/
theorem c3_witness :
    ∃ rest, (("7.2 rest").data).dropWhile pyIsSpace = ("7.2").data ++ rest ∧
      (∀ c, rest.head? = some c → isWordChar c = false) ∧
      ((("7.2").data ≠ [] ∧ (("7.2").data).length ≤ 3 ∧ ∀ c ∈ ("7.2").data, isPyDigit c = true) ∨
        (∃ ds ds2, ("7.2").data = ds ++ '.' :: ds2 ∧ ds ≠ [] ∧ ds.length ≤ 3 ∧
          (∀ c ∈ ds, isPyDigit c = true) ∧ ds2 ≠ [] ∧ ∀ c ∈ ds2, isPyDigit c = true)) :=
  c3_serial_marker.2.2.2.2.1 (("7.2 rest").data) (("7.2").data) (by decide)


/-- Claim C6: the built index maps every key to the first entry in input
order bearing it, and with two entries sharing a key the lookup returns the
earlier one. -/
theorem c6_index_first_wins :
    (∀ (items : List Entry) (k : List Char),
      lookupKey (build_index items) k = items.find? (fun e => decide (entryKey e = k))) ∧
      (∀ e1 e2 : Entry, entryKey e1 = entryKey e2 →
        lookupKey (build_index [e1, e2]) (entryKey e1) = some e1) := by
  refine ⟨lookup_build_index, ?_⟩
  intro e1 e2 h
  rw [lookup_build_index]
  rw [List.find?_cons]
  simp

/-- Witness for claim C6 with two concrete entries sharing the key 3/10. -/
theorem c6_witness :
    lookupKey (build_index
        [⟨some 3, ("10").data, some (("A").data), some (("B").data), 1⟩,
         ⟨some 3, ("10").data, some (("C").data), some (("D").data), 2⟩])
      (entryKey ⟨some 3, ("10").data, some (("A").data), some (("B").data), 1⟩) =
      some ⟨some 3, ("10").data, some (("A").data), some (("B").data), 1⟩ :=
  c6_index_first_wins.2
    ⟨some 3, ("10").data, some (("A").data), some (("B").data), 1⟩
    ⟨some 3, ("10").data, some (("C").data), some (("D").data), 2⟩ (by decide)

/-- Claim C8: a reference absent from the index yields the NOT FOUND line in
place, the batch produces one line per reference and never fails. -/
theorem c8_lookup_miss (idx : List (List Char × Entry)) (refs : List (List Char))
    (r : List Char) (hr : r ∈ refs) (hmiss : lookupKey idx r = none) :
    (runRefs idx refs).length = refs.length ∧
      (r ++ (" - NOT FOUND").data) ∈ runRefs idx refs := by
  constructor
  · simp [runRefs]
  · unfold runRefs
    refine List.mem_map.mpr ⟨r, hr, ?_⟩
    rw [hmiss]

/-- Witness for claim C8 on an empty index. -/
theorem c8_witness :
    (runRefs (build_index []) [("9/9").data]).length = [("9/9").data].length ∧
      (("9/9").data ++ (" - NOT FOUND").data) ∈ runRefs (build_index []) [("9/9").data] :=
  c8_lookup_miss (build_index []) [("9/9").data] (("9/9").data) (by decide) (by decide)

/-- Claim C9: the dump-all mode emits the index keys in ascending order of
the pair court as integer, serial as decimal, and the emitted lines are the
formatted entries in that key order. -/
theorem c9_dump_sorted (items : List Entry) :
    List.Pairwise keyFnLE (sortedIndexKeys (build_index items)) ∧
      dump_all items = (sortedIndexKeys (build_index items)).map
        (fun k =>
          match lookupKey (build_index items) k with
          | some e => format_line e
          | none => []) :=
  ⟨List.sorted_insertionSort keyFnLE _, rfl⟩


theorem parse_items_page_court (ps : List PdfPage) (pg : PdfPage) (qs : List PdfPage)
    (e : Entry) (he : e ∈ parse_items (ps ++ pg :: qs)) (hp : e.page = ps.length + 1) :
    e.court = pageCourtOf (ctxAfter ps none) pg := by
  unfold parse_items at he
  rw [parseAux_append] at he
  rcases List.mem_append.mp he with h1 | h1
  · have hr := (parseAux_page_range ps none 1 e h1).2
    omega
  · simp only [parseAux] at h1
    rcases List.mem_append.mp h1 with h2 | h2
    · exact (processPage_entries _ pg (1 + ps.length) e h2).2
    · have hr := (parseAux_page_range qs _ (1 + ps.length + 1) e h2).1
      omega

/-- Claim C7, counterexample: the second page carries the marker COURT NO. 0,
so a court number is freshly detected there, yet the carried context stays 7
and the entries of pages two and three receive court 7. -/
theorem c7_counterexample :
    detect_court_number
        (mkSimplePage (("COURT NO. 0").data) (("6\nGhi\nversus\nJkl").data)) = some 0 ∧
      ctxAfter
        [mkSimplePage (("COURT NO. 7").data) (("5\nAbc\nversus\nDef").data),
         mkSimplePage (("COURT NO. 0").data) (("6\nGhi\nversus\nJkl").data)] none ≠ some 0 ∧
      parse_pdf
        [mkSimplePage (("COURT NO. 7").data) (("5\nAbc\nversus\nDef").data),
         mkSimplePage (("COURT NO. 0").data) (("6\nGhi\nversus\nJkl").data),
         mkSimplePage (("no marker here").data) (("7\nMno\nversus\nPqr").data)] =
        [⟨some 7, ("5").data, some (("Abc").data), some (("Def").data), 1⟩,
         ⟨some 7, ("6").data, some (("Ghi").data), some (("Jkl").data), 2⟩,
         ⟨some 7, ("7").data, some (("Mno").data), some (("Pqr").data), 3⟩] := by
  refine ⟨by decide, by decide, by decide⟩

/-- Claim C7, amended: a page with no detected number inherits the carried
context and leaves it unchanged, a detected nonzero number becomes the new
context, a detected zero is treated as no detection, the context equals the
most recent truthy detection, and every entry of a page carries the court
resolved for that page. -/
theorem c7_amended_theorem (ps : List PdfPage) (pg : PdfPage) (qs : List PdfPage) :
    (detect_court_number pg = none →
      pageCourtOf (ctxAfter ps none) pg = ctxAfter ps none ∧
        ctxAfter (ps ++ [pg]) none = ctxAfter ps none) ∧
      (∀ c, detect_court_number pg = some c → c ≠ 0 →
        ctxAfter (ps ++ [pg]) none = some c) ∧
      (detect_court_number pg = some 0 →
        pageCourtOf (ctxAfter ps none) pg = ctxAfter ps none ∧
          ctxAfter (ps ++ [pg]) none = ctxAfter ps none) ∧
      (∀ l, ctxAfter ps l = lastDetectFold ps l) ∧
      (∀ e, e ∈ parse_items (ps ++ pg :: qs) → e.page = ps.length + 1 →
        e.court = pageCourtOf (ctxAfter ps none) pg) := by
  refine ⟨?_, ?_, ?_, fun l => ctxAfter_eq_lastDetectFold ps l,
    fun e he hp => parse_items_page_court ps pg qs e he hp⟩
  · intro hd
    constructor
    · simp [pageCourtOf, pyOrCourt, hd, truthyO]
    · rw [ctxAfter_append, ctxAfter_cons, hd]
      rfl
  · intro c hd hc
    rw [ctxAfter_append, ctxAfter_cons, hd]
    simp only [hc, if_false]
    rfl
  · intro hd
    constructor
    · simp [pageCourtOf, pyOrCourt, hd, truthyO]
    · rw [ctxAfter_append, ctxAfter_cons, hd]
      rfl

/-- Witness for the amended claim C7 on a two-page document whose second page
has no court marker. -/
theorem c7_witness :
    pageCourtOf
        (ctxAfter [mkSimplePage (("COURT NO. 7").data) (("5\nAbc\nversus\nDef").data)] none)
        (mkSimplePage (("no marker here").data) (("6\nGhi\nversus\nJkl").data)) =
      ctxAfter [mkSimplePage (("COURT NO. 7").data) (("5\nAbc\nversus\nDef").data)] none ∧
      ctxAfter
        ([mkSimplePage (("COURT NO. 7").data) (("5\nAbc\nversus\nDef").data)] ++
          [mkSimplePage (("no marker here").data) (("6\nGhi\nversus\nJkl").data)]) none =
        ctxAfter [mkSimplePage (("COURT NO. 7").data) (("5\nAbc\nversus\nDef").data)] none :=
  (c7_amended_theorem
    [mkSimplePage (("COURT NO. 7").data) (("5\nAbc\nversus\nDef").data)]
    (mkSimplePage (("no marker here").data) (("6\nGhi\nversus\nJkl").data)) []).1 (by decide)


/-- Claim C10: the per-page machine state starts fresh on every page, so the
entries attributed to a page are exactly what processing that page alone from
the initial state yields, independent of later pages, and an entry whose
petitioner or respondent is still unset is excluded from the parse output. -/
theorem c10_page_state_reset (ps : List PdfPage) (pg : PdfPage) (qs : List PdfPage) :
    ((parse_items (ps ++ pg :: qs)).filter (fun e => decide (e.page = ps.length + 1)) =
      processPage (pageCourtOf (ctxAfter ps none) pg) pg (ps.length + 1)) ∧
      (∀ (pages : List PdfPage) (e : Entry), e ∈ parse_items pages →
        e.petitioner = none ∨ e.respondent = none → e ∉ parse_pdf pages) := by
  constructor
  · unfold parse_items
    rw [parseAux_append]
    have hadd : 1 + ps.length = ps.length + 1 := Nat.add_comm 1 ps.length
    rw [hadd]
    rw [List.filter_append]
    have h1 : (parseAux ps none 1).filter (fun e => decide (e.page = ps.length + 1)) = [] := by
      rw [List.filter_eq_nil_iff]
      intro e he
      have hr := (parseAux_page_range ps none 1 e he).2
      simp only [decide_eq_true_eq]
      omega
    rw [h1]
    simp only [parseAux, List.filter_append]
    have h2 : (processPage (pyOrCourt (detect_court_number pg) (ctxAfter ps none)) pg
        (ps.length + 1)).filter (fun e => decide (e.page = ps.length + 1)) =
        processPage (pyOrCourt (detect_court_number pg) (ctxAfter ps none)) pg
          (ps.length + 1) := by
      rw [List.filter_eq_self]
      intro e he
      have hp := (processPage_entries _ pg (ps.length + 1) e he).1
      simp [hp]
    have h3 : (parseAux qs
        (if truthyO (pyOrCourt (detect_court_number pg) (ctxAfter ps none))
          then pyOrCourt (detect_court_number pg) (ctxAfter ps none) else ctxAfter ps none)
        (ps.length + 1 + 1)).filter (fun e => decide (e.page = ps.length + 1)) = [] := by
      rw [List.filter_eq_nil_iff]
      intro e he
      have hr := (parseAux_page_range qs _ (ps.length + 1 + 1) e he).1
      simp only [decide_eq_true_eq]
      omega
    rw [h2, h3]
    simp [pageCourtOf]
  · intro pages e he hfield hmem
    have h := (List.mem_filter.mp hmem).2
    obtain ⟨court, serial, pet, resp, page⟩ := e
    rcases hfield with hf | hf
    · simp only at hf
      subst hf
      simp [entryTruthy] at h
    · simp only at hf
      subst hf
      simp [entryTruthy] at h

/-- Witness for claim C10: a page whose only line is a serial marker leaves
an entry without petitioner, which the parse output excludes. -/
theorem c10_witness :
    (⟨some 2, ("5").data, none, none, 1⟩ : Entry) ∈
        parse_items [mkSimplePage (("COURT NO. 2").data) (("5").data)] ∧
      (⟨some 2, ("5").data, none, none, 1⟩ : Entry) ∉
        parse_pdf [mkSimplePage (("COURT NO. 2").data) (("5").data)] :=
  ⟨by decide,
    (c10_page_state_reset [] (mkSimplePage (("COURT NO. 2").data) (("5").data)) []).2
      [mkSimplePage (("COURT NO. 2").data) (("5").data)]
      ⟨some 2, ("5").data, none, none, 1⟩ (by decide) (Or.inl rfl)⟩


end CauseList
